import Mathlib

/-!
Verification model of the `alsonow` HTTP router (Go).

Strings are modelled as `List Char`; Go maps as association lists; Go `nil`
slices as `Option.none`.  Every definition is translated from the repository
source: `normalizePath`, the radix-tree `insert`/`search`, group middleware
composition and the dispatcher come from `router.go`, and the pooled
`Context` with its cooperative chain executor comes from the context file
(`Next`/`Abort`/`IsAborted`).
-/

namespace Alsonow

/-- Strings are modelled as lists of characters. -/
abbrev Str := List Char

/-- Shorthand for turning a Lean string literal into the model type. -/
def str (s : String) : Str := s.toList

/-- Characters Go's `unicode.IsSpace` reports as white space. -/
def isSpace (c : Char) : Bool :=
  c = ' ' || c = '\t' || c = '\n' || c.toNat = 0xb || c.toNat = 0xc || c = '\r' ||
  c.toNat = 0x85 || c.toNat = 0xa0 || c.toNat = 0x1680 ||
  (0x2000 ≤ c.toNat && c.toNat ≤ 0x200a) || c.toNat = 0x2028 || c.toNat = 0x2029 ||
  c.toNat = 0x202f || c.toNat = 0x205f || c.toNat = 0x3000

/-- Go `strings.TrimSpace`: drop white space from both ends. -/
def trimSpace (s : Str) : Str :=
  ((s.dropWhile isSpace).reverse.dropWhile isSpace).reverse

/-- Go `strings.ReplaceAll(s, "//", "/")`: one left-to-right replacement pass. -/
def replaceDSlash : Str → Str
  | [] => []
  | [c] => [c]
  | c1 :: c2 :: rest =>
    if c1 = '/' && c2 = '/' then '/' :: replaceDSlash rest
    else c1 :: replaceDSlash (c2 :: rest)

/-- Go `strings.Contains(s, "//")`. -/
def containsDSlash : Str → Bool
  | c1 :: c2 :: rest => (c1 = '/' && c2 = '/') || containsDSlash (c2 :: rest)
  | _ => false

/-- The `for strings.Contains(path, "//")` loop of `normalizePath`; the fuel
argument is a bound on the number of iterations, each of which strictly
shortens the string (`collapse` below supplies a sufficient bound). -/
def collapseAux : Nat → Str → Str
  | 0, s => s
  | fuel + 1, s => if containsDSlash s then collapseAux fuel (replaceDSlash s) else s

/-- Collapse every run of consecutive slashes to a single slash. -/
def collapse (s : Str) : Str := collapseAux s.length s

/-- Go `strings.HasPrefix(s, "/")`. -/
def startsWithSlash (s : Str) : Bool := s.head? = some '/'

/-- Go `strings.TrimSuffix(s, "/")`: drop one trailing slash if present. -/
def trimSuffixSlash (s : Str) : Str :=
  if s.getLast? = some '/' then s.dropLast else s

/-- Go `strings.TrimPrefix(s, "/")`: drop one leading slash if present. -/
def trimPrefixSlash (s : Str) : Str :=
  match s with
  | '/' :: rest => rest
  | s => s

/-- Last step of `normalizePath`: drop one trailing slash unless the whole
path is `"/"`. -/
def normalizeEnd (p3 : Str) : Str :=
  if p3 ≠ ['/'] then trimSuffixSlash p3 else p3

/-- Middle steps of `normalizePath`: force a leading slash, then apply the
trailing-slash rule. -/
def normalizeRest (p2 : Str) : Str :=
  normalizeEnd (if startsWithSlash p2 then p2 else '/' :: p2)

/-- `normalizePath` from `router.go`: empty input becomes `"/"`; otherwise
trim white space, collapse slash runs, force a leading slash, and drop a
trailing slash unless the whole path is `"/"`. -/
def normalizePath (p : Str) : Str :=
  if p = [] then ['/']
  else normalizeRest (collapse (trimSpace p))

example : normalizePath (str "") = str "/" := by decide
example : normalizePath (str "home") = str "/home" := by decide
example : normalizePath (str "/home/") = str "/home" := by decide
example : normalizePath (str "/home//about///contact") = str "/home/about/contact" := by decide
example : normalizePath (str "////") = str "/" := by decide
example : normalizePath (str "/a /") = str "/a " := by decide
example : normalizePath (str "/a ") = str "/a" := by decide

/-! ## The radix tree (`node` and the per-method trees of `routerImpl`) -/

/-- Go `strings.Split(s, "/")`. -/
def splitSlash : Str → List Str
  | [] => [[]]
  | c :: rest =>
    if c = '/' then [] :: splitSlash rest
    else
      match splitSlash rest with
      | [] => [[c]]
      | h :: t => (c :: h) :: t

/-- Lookup in an association list, modelling a read from a Go map. -/
def assocFind {β : Type} : List (Str × β) → Str → Option β
  | [], _ => none
  | (k, v) :: rest, key => if k = key then some v else assocFind rest key

/-- Update-or-append in an association list, modelling a Go map write. -/
def assocSet {β : Type} : List (Str × β) → Str → β → List (Str × β)
  | [], key, v => [(key, v)]
  | (k, w) :: rest, key, v =>
    if k = key then (k, v) :: rest else (k, w) :: assocSet rest key v

/-- The `node` struct of `router.go`: literal children, at most one parameter
child, the handler chain (`none` models a Go `nil` slice), the terminal flag
and the parameter name. -/
inductive RNode (α : Type) where
  | mk (children : List (Str × RNode α)) (paramChild : Option (RNode α))
      (handlers : Option (List α)) (isEnd : Bool) (paramName : Str)

/-- Literal children of a node. -/
def RNode.children {α : Type} : RNode α → List (Str × RNode α)
  | .mk c _ _ _ _ => c

/-- Parameter child of a node, if any. -/
def RNode.paramChild {α : Type} : RNode α → Option (RNode α)
  | .mk _ p _ _ _ => p

/-- Handler chain stored at a node (`none` is Go `nil`). -/
def RNode.handlers {α : Type} : RNode α → Option (List α)
  | .mk _ _ h _ _ => h

/-- Whether some registered route ends exactly at this node. -/
def RNode.isEnd {α : Type} : RNode α → Bool
  | .mk _ _ _ e _ => e

/-- Parameter name owned by a parameter child. -/
def RNode.paramName {α : Type} : RNode α → Str
  | .mk _ _ _ _ n => n

/-- A fresh node, as allocated by `getTree` and for literal children. -/
def freshNode {α : Type} : RNode α := .mk [] none none false []

/-- A fresh parameter child, as allocated by `insert` (`&node{paramName: ...}`). -/
def freshParam {α : Type} (name : Str) : RNode α := .mk [] none none false name

/-- Mark a node terminal and store the handler chain (`cur.isEnd = true;
cur.handlers = combined`). -/
def RNode.withEnd {α : Type} : RNode α → Option (List α) → RNode α
  | .mk c p _ _ n, hs => .mk c p hs true n

/-- Replace the parameter child of a node. -/
def RNode.withParam {α : Type} : RNode α → RNode α → RNode α
  | .mk c _ h e n, pc => .mk c (some pc) h e n

/-- Replace the literal-children map of a node. -/
def RNode.withChildren {α : Type} : RNode α → List (Str × RNode α) → RNode α
  | .mk _ p h e n, c => .mk c p h e n

/-- The panic message of `routerImpl.insert` on a parameter-name conflict. -/
def conflictMsg (path newName oldName : Str) : Str :=
  (str "cannot register '") ++ path ++ (str "': parameter name ':") ++ newName ++
    (str "' conflicts with existing ':") ++ oldName ++
    (str "' in previously registered path")

/-- The segment loop of `routerImpl.insert`: walk/create nodes along the
segments, failing (Go panics) when a parameter segment meets an existing
parameter child with a different name; the node at the end of the walk is
marked terminal and receives the chain. -/
def insertSegs {α : Type} (path : Str) : RNode α → List Str → Option (List α) →
    Except Str (RNode α)
  | n, [], hs => .ok (n.withEnd hs)
  | n, seg :: rest, hs =>
    if seg.head? = some ':' then
      match n.paramChild with
      | some pc =>
        if pc.paramName ≠ seg.tail then
          .error (conflictMsg path seg.tail pc.paramName)
        else
          match insertSegs path pc rest hs with
          | .error e => .error e
          | .ok c => .ok (n.withParam c)
      | none =>
        match insertSegs path (freshParam seg.tail) rest hs with
        | .error e => .error e
        | .ok c => .ok (n.withParam c)
    else
      match insertSegs path ((assocFind n.children seg).getD freshNode) rest hs with
      | .error e => .error e
      | .ok c => .ok (n.withChildren (assocSet n.children seg c))

/-- The segment loop of `routerImpl.search` plus the final terminal check:
a literal child matching the segment is preferred over the parameter child;
parameter matches record `paramName -> segment`; every failure returns
`(nil, nil)`. -/
def searchSegs {α : Type} : RNode α → List Str → List (Str × Str) →
    Option (List α) × List (Str × Str)
  | n, [], params => if n.isEnd then (n.handlers, params) else (none, [])
  | n, seg :: rest, params =>
    match assocFind n.children seg with
    | some child => searchSegs child rest params
    | none =>
      match n.paramChild with
      | some pc => searchSegs pc rest (assocSet params pc.paramName seg)
      | none => (none, [])

/-! ## The router (`routerImpl`), groups and the dispatcher -/

/-- `routerImpl`: one tree per method plus the global middleware sequence. -/
structure GoRouter (α : Type) where
  trees : List (Str × RNode α)
  middlewares : List α

/-- The router as built by `newRouter`. -/
def emptyRouter {α : Type} : GoRouter α := ⟨[], []⟩

/-- `http.MethodGet`. -/
def methodGet : Str := str "GET"

/-- `routerImpl.getTree`: fetch the method's root, creating it if absent. -/
def getTree {α : Type} (r : GoRouter α) (method : Str) : RNode α :=
  (assocFind r.trees method).getD freshNode

/-- `routerImpl.insert`: normalize, handle the root path directly, otherwise
split into segments and run the segment loop. -/
def insertGo {α : Type} (r : GoRouter α) (method path : Str)
    (hs : Option (List α)) : Except Str (GoRouter α) :=
  if normalizePath path = ['/'] then
    .ok { r with trees := assocSet r.trees method ((getTree r method).withEnd hs) }
  else
    match insertSegs (normalizePath path) (getTree r method)
        (splitSlash (normalizePath path).tail) hs with
    | .error e => .error e
    | .ok t => .ok { r with trees := assocSet r.trees method t }

/-- `routerImpl.search`: normalize, handle the root path directly, otherwise
walk the segments; `(none, [])` models Go's `(nil, nil)` not-found result. -/
def searchGo {α : Type} (r : GoRouter α) (method path : Str) :
    Option (List α) × List (Str × Str) :=
  match assocFind r.trees method with
  | none => (none, [])
  | some root =>
    if normalizePath path = ['/'] then
      if root.isEnd then (root.handlers, []) else (none, [])
    else
      searchSegs root (splitSlash (normalizePath path).tail) []

/-- `routerImpl.addRoute`: concatenate middlewares and handlers (the combined
slice is always non-`nil`) and insert. -/
def addRoute {α : Type} (r : GoRouter α) (method path : Str)
    (middlewares handlers : List α) : Except Str (GoRouter α) :=
  insertGo r method path (some (middlewares ++ handlers))

/-- `routerImpl.GET` and friends: routes registered directly on the router
pass `nil` middlewares to `addRoute`. -/
def routerHandle {α : Type} (r : GoRouter α) (method path : Str)
    (handlers : List α) : Except Str (GoRouter α) :=
  addRoute r method path [] handlers

/-- `routerImpl.Use`: append to the global middleware sequence. -/
def useRouter {α : Type} (r : GoRouter α) (ms : List α) : GoRouter α :=
  { r with middlewares := r.middlewares ++ ms }

/-- The `Group` struct: prefix, own middlewares and optional parent. -/
inductive GoGroup (α : Type) where
  | mk (pfx : Str) (middlewares : List α) (parent : Option (GoGroup α))

/-- Prefix of a group. -/
def GoGroup.pfx {α : Type} : GoGroup α → Str
  | .mk p _ _ => p

/-- Own middlewares of a group. -/
def GoGroup.middlewares {α : Type} : GoGroup α → List α
  | .mk _ m _ => m

/-- `routerImpl.Group`: a root group with normalized prefix and no parent. -/
def routerGroup {α : Type} (p : Str) (ms : List α) : GoGroup α :=
  .mk (normalizePath p) ms none

/-- `Group.Group`: a child group; the parent is kept for the ancestor walk. -/
def groupGroup {α : Type} (g : GoGroup α) (sub : Str) (ms : List α) : GoGroup α :=
  let np := if g.pfx.getLast? = some '/' then g.pfx else g.pfx ++ ['/']
  .mk (np ++ trimPrefixSlash (normalizePath sub)) ms (some g)

/-- `Group.collectMiddlewares`: walk from the group up through its ancestors
collecting their middleware, then append the router's global middleware. -/
def collectAncestors {α : Type} : GoGroup α → List α
  | .mk _ m none => m
  | .mk _ m (some parent) => m ++ collectAncestors parent

/-- Middleware sequence `Group.add` passes to `addRoute`. -/
def collectMiddlewares {α : Type} (g : GoGroup α) (r : GoRouter α) : List α :=
  collectAncestors g ++ r.middlewares

/-- `Group.add`: compose the full path from the group prefix and the relative
path, then register with the collected middleware. -/
def groupAdd {α : Type} (g : GoGroup α) (r : GoRouter α) (method path : Str)
    (handlers : List α) : Except Str (GoRouter α) :=
  let np := normalizePath path
  let fullPath :=
    if np ≠ ['/'] then
      (if g.pfx.getLast? = some '/' then g.pfx else g.pfx ++ ['/']) ++
        trimPrefixSlash np
    else g.pfx
  addRoute r method fullPath (collectMiddlewares g r) handlers

example :
    (do
      let r1 ← insertGo (emptyRouter (α := Nat)) methodGet (str "/users/:id") (some [1])
      insertGo r1 methodGet (str "/users/:name") (some [2])) =
      .error (conflictMsg (str "/users/:name") (str "name")  (str "id")) := by
  rfl

example :
    (do
      let r1 ← routerHandle (emptyRouter (α := Nat)) methodGet (str "/users/me") [1]
      let r2 ← routerHandle r1 methodGet (str "/users/:id") [2]
      pure ((searchGo r2 methodGet (str "/users/me")).1,
        searchGo r2 methodGet (str "/users/42"))) =
      .ok (some [1], (some [2], [(str "id", str "42")])) := by
  rfl

/-! ## The pooled `Context` (acquire/release) -/

/-- The pooled `Context` of the context file: borrowed response sink and
request handle (`none` models Go `nil`), parameter mapping, key/value bag,
chain cursor and abort flag.  `σ`, `ρ` and `δ` stand for the opaque
`http.ResponseWriter`, `*http.Request` and bag-value types. -/
structure GoContext (α σ ρ δ : Type) where
  writer : Option σ
  req : Option ρ
  params : List (Str × Str)
  data : List (Str × δ)
  index : Int
  handlers : Option (List α)
  aborted : Bool

/-- `routerImpl.acquireCtx`: rebind sink and request, install the chain, set
the cursor before the first handler, clear the abort flag and clear the
parameter mapping and the key/value bag. -/
def acquireCtx {α σ ρ δ : Type} (c : GoContext α σ ρ δ) (w : σ) (r : ρ)
    (h : Option (List α)) : GoContext α σ ρ δ :=
  { c with
    writer := some w
    req := some r
    handlers := h
    index := -1
    aborted := false
    params := []
    data := [] }

/-- `routerImpl.releaseCtx`: clear the chain, the sink and the request handle
before returning the Context to the pool. -/
def releaseCtx {α σ ρ δ : Type} (c : GoContext α σ ρ δ) : GoContext α σ ρ δ :=
  { c with handlers := none, writer := none, req := none }

/-! ## The chain executor (`Context.Next`, `Abort`, `IsAborted`)

Handlers are opaque Go functions; for the executor we deep-embed the actions
a handler can take that are visible to the chain contract: calling `Next()`,
calling `Abort()`, cancelling the request's context, and observing
`IsAborted()`. -/

/-- One observable action of a handler body. -/
inductive HAct where
  | next
  | abort
  | cancel
  | obs
  deriving DecidableEq

/-- A handler is the sequence of its observable actions. -/
abbrev Handler := List HAct

/-- Executor state: the chain, the cursor `index`, the `aborted` flag, the
request-cancellation state (`Req.Context().Err() != nil`), the indices of
handlers the executor has invoked, and the values `IsAborted()` returned. -/
structure ExecSt where
  handlers : List Handler
  index : Int
  aborted : Bool
  cancelled : Bool
  invoked : List Nat
  out : List Bool
  deriving DecidableEq

/-- Handler at the cursor (the executor only reads it at valid cursors). -/
def handlerAt (st : ExecSt) : Handler := st.handlers.getD st.index.toNat []

/-- Record that the executor invokes the handler at the cursor. -/
def markInvoked (st : ExecSt) : ExecSt :=
  { st with invoked := st.invoked ++ [st.index.toNat] }

/-- `c.index++` after a handler returns. -/
def bumpIndex (st : ExecSt) : ExecSt := { st with index := st.index + 1 }

/-- Which piece of the executor is running: an entry into `Next()`, an
iteration of its loop, or the remaining actions of a handler body. -/
inductive Call where
  | nextC
  | loopC
  | actsC (acts : List HAct)

/-- The chain executor, `Context.Next`: on entry, return if already aborted,
else advance the cursor and enter the loop; each loop iteration stops at the
chain's end, re-checks the abort flag, checks request cancellation, then
invokes the handler at the cursor and advances.  Handler bodies run their
actions in order; an embedded `next` re-enters `Next()` reentrantly.  The
fuel argument only bounds the recursion depth; concrete theorems supply
enough fuel. -/
def run : Nat → Call → ExecSt → ExecSt
  | 0, _, st => st
  | fuel + 1, .nextC, st =>
    if st.aborted then st else run fuel .loopC (bumpIndex st)
  | fuel + 1, .loopC, st =>
    if st.index < (st.handlers.length : Int) then
      if st.aborted then st
      else if st.cancelled then st
      else run fuel .loopC (bumpIndex (run fuel (.actsC (handlerAt st)) (markInvoked st)))
    else st
  | _ + 1, .actsC [], st => st
  | fuel + 1, .actsC (.next :: rest), st => run fuel (.actsC rest) (run fuel .nextC st)
  | fuel + 1, .actsC (.abort :: rest), st =>
    run fuel (.actsC rest) { st with aborted := true }
  | fuel + 1, .actsC (.cancel :: rest), st =>
    run fuel (.actsC rest) { st with cancelled := true }
  | fuel + 1, .actsC (.obs :: rest), st =>
    run fuel (.actsC rest) { st with out := st.out ++ [st.aborted] }

/-- Executor state as `ServeHTTP` prepares it: chain installed, cursor before
the first handler, flags clear. -/
def initSt (chain : List Handler) : ExecSt := ⟨chain, -1, false, false, [], []⟩

/-- Observable outcome of one `ServeHTTP` dispatch: whether the not-found
response was written, which handlers ran, and what `IsAborted()` observations
they made. -/
structure ServeResult where
  notFoundWritten : Bool
  invoked : List Nat
  out : List Bool
  deriving DecidableEq

/-- `routerImpl.ServeHTTP`: search; on `nil` handlers write the not-found
response and invoke nothing; otherwise run the chain from a fresh cursor. -/
def serveExec (fuel : Nat) (r : GoRouter Handler) (method path : Str) : ServeResult :=
  match searchGo r method path with
  | (none, _) => ⟨true, [], []⟩
  | (some hs, _) =>
    let st := run fuel .nextC (initSt hs)
    ⟨false, st.invoked, st.out⟩

example :
    run 20 .nextC (initSt [[.obs], [.abort, .next], [.obs]]) =
      ⟨[[.obs], [.abort, .next], [.obs]], 2, true, false, [0, 1], [false]⟩ := by
  decide

example :
    run 20 .nextC (initSt [[.cancel, .obs], [.obs]]) =
      ⟨[[.cancel, .obs], [.obs]], 1, false, true, [0], [false]⟩ := by
  decide

/-! ## Specification-side definitions used to state the claims -/

/-- The pure trie walk of a segment list, without the terminal check: follow
a matching literal child, else the parameter child (recording the binding),
else fail. -/
def walkSegs {α : Type} : RNode α → List Str → List (Str × Str) →
    Option (RNode α × List (Str × Str))
  | n, [], ps => some (n, ps)
  | n, seg :: rest, ps =>
    match assocFind n.children seg with
    | some child => walkSegs child rest ps
    | none =>
      match n.paramChild with
      | some pc => walkSegs pc rest (assocSet ps pc.paramName seg)
      | none => none

/-- The subtree `routerImpl.insert` grows under a fresh node for a given
segment list: a parameter segment becomes the sole parameter child, a literal
segment the sole literal child, and the final node is terminal and stores the
chain.  `h0`, `e0` and `nm` are the fields of the node the walk starts at. -/
def buildSub {α : Type} : List Str → Option (List α) → Option (List α) →
    Bool → Str → RNode α
  | [], hs, _, _, nm => .mk [] none hs true nm
  | seg :: rest, hs, h0, e0, nm =>
    if seg.head? = some ':' then
      .mk [] (some (buildSub rest hs none false seg.tail)) h0 e0 nm
    else
      .mk [(seg, buildSub rest hs none false [])] none h0 e0 nm

/-- A segment of an already-canonical path: non-empty, slash-free and free of
white space. -/
def validSeg (s : Str) : Prop := s ≠ [] ∧ ∀ c ∈ s, c ≠ '/' ∧ isSpace c = false

instance : DecidablePred validSeg := fun s => by
  unfold validSeg; exact inferInstance

/-- A parameter name: slash-free and free of white space. -/
def validName (n : Str) : Prop := ∀ c ∈ n, c ≠ '/' ∧ isSpace c = false

instance : DecidablePred validName := fun n => by
  unfold validName; exact inferInstance

/-- Join segments with slashes (`joinSegs` below prepends the leading one). -/
def joinAux : List Str → Str
  | [] => []
  | [s] => s
  | s :: rest => s ++ '/' :: joinAux rest

/-- The canonical path spelled by a list of segments. -/
def joinSegs (ss : List Str) : Str := '/' :: joinAux ss

/-- A path already in the normal form produced by `normalizePath`. -/
def pathCanon (s : Str) : Prop :=
  startsWithSlash s = true ∧ containsDSlash s = false ∧
    (∀ c ∈ s, isSpace c = false) ∧ (s = ['/'] ∨ s.getLast? ≠ some '/')

instance : DecidablePred pathCanon := fun s => by
  unfold pathCanon; exact inferInstance

/-! ## Executor helper lemmas -/

/-- The executor never changes the installed chain. -/
theorem run_handlers_eq : ∀ (fuel : Nat) (c : Call) (st : ExecSt),
    (run fuel c st).handlers = st.handlers := by
  intro fuel
  induction fuel with
  | zero => intro c st; rfl
  | succ f ih =>
    intro c st
    match c with
    | .nextC =>
      simp only [run]
      split
      · rfl
      · simp [ih, bumpIndex]
    | .loopC =>
      simp only [run]
      split
      · split
        · rfl
        · split
          · rfl
          · simp [ih, bumpIndex, markInvoked]
      · rfl
    | .actsC [] => rfl
    | .actsC (.next :: rest) => simp [run, ih]
    | .actsC (.abort :: rest) => simp [run, ih]
    | .actsC (.cancel :: rest) => simp [run, ih]
    | .actsC (.obs :: rest) => simp [run, ih]

/-- The handler the executor is about to invoke is abort-free whenever every
handler of the chain is. -/
theorem handlerAt_abortFree (st : ExecSt)
    (hch : ∀ h ∈ st.handlers, HAct.abort ∉ h) : HAct.abort ∉ handlerAt st := by
  unfold handlerAt
  rcases hg : st.handlers.get? st.index.toNat with _ | h
  · simp [List.getD_eq_getElem?_getD, ← List.get?_eq_getElem?, hg]
  · have hm : h ∈ st.handlers := List.get?_mem hg
    simpa [List.getD_eq_getElem?_getD, ← List.get?_eq_getElem?, hg] using hch h hm

/-- If no handler of the chain ever calls `Abort()`, running any part of the
executor leaves the abort flag unchanged. -/
theorem run_aborted_of_abortFree : ∀ (fuel : Nat) (c : Call) (st : ExecSt),
    (∀ h ∈ st.handlers, HAct.abort ∉ h) →
    (∀ acts, c = .actsC acts → HAct.abort ∉ acts) →
    (run fuel c st).aborted = st.aborted := by
  intro fuel
  induction fuel with
  | zero => intro c st _ _; rfl
  | succ f ih =>
    intro c st hch hc
    match c with
    | .nextC =>
      simp only [run]
      split
      · rfl
      · rw [ih .loopC (bumpIndex st) (by simpa [bumpIndex] using hch)
          (by intro acts h; cases h)]
        rfl
    | .loopC =>
      simp only [run]
      split
      · split
        · rfl
        · split
          · rfl
          · have h1 : ∀ h ∈ (markInvoked st).handlers, HAct.abort ∉ h := by
              simpa [markInvoked] using hch
            have hAt := handlerAt_abortFree st hch
            have h2 := ih (.actsC (handlerAt st)) (markInvoked st) h1
              (by intro acts hacts; cases hacts; exact hAt)
            have h4 : ∀ h ∈ (bumpIndex (run f (.actsC (handlerAt st))
                (markInvoked st))).handlers, HAct.abort ∉ h := by
              simpa [bumpIndex, run_handlers_eq, markInvoked] using hch
            rw [ih .loopC _ h4 (by intro acts h; cases h)]
            simpa [bumpIndex, markInvoked] using h2
      · rfl
    | .actsC [] => rfl
    | .actsC (.next :: rest) =>
      have h1 := ih .nextC st hch (by intro acts h; cases h)
      have hh : (run f .nextC st).handlers = st.handlers := run_handlers_eq f _ st
      rw [show run (f + 1) (.actsC (.next :: rest)) st =
          run f (.actsC rest) (run f .nextC st) from rfl]
      rw [ih (.actsC rest) _ (by simpa [hh] using hch)
        (by intro acts h; cases h; intro hmem; exact hc _ rfl (List.mem_cons_of_mem _ hmem))]
      exact h1
    | .actsC (.abort :: rest) =>
      exact absurd (List.mem_cons_self _ _) (hc _ rfl)
    | .actsC (.cancel :: rest) =>
      rw [show run (f + 1) (.actsC (.cancel :: rest)) st =
          run f (.actsC rest) { st with cancelled := true } from rfl]
      rw [ih (.actsC rest) _ (by simpa using hch)
        (by intro acts h; cases h; intro hmem; exact hc _ rfl (List.mem_cons_of_mem _ hmem))]
    | .actsC (.obs :: rest) =>
      rw [show run (f + 1) (.actsC (.obs :: rest)) st =
          run f (.actsC rest) { st with out := st.out ++ [st.aborted] } from rfl]
      rw [ih (.actsC rest) _ (by simpa using hch)
        (by intro acts h; cases h; intro hmem; exact hc _ rfl (List.mem_cons_of_mem _ hmem))]

/-- A loop iteration started after the cancellation signal fired does
nothing. -/
theorem run_loopC_cancelled (fuel : Nat) (st : ExecSt) (h : st.cancelled = true) :
    run fuel .loopC st = st := by
  cases fuel with
  | zero => rfl
  | succ f =>
    simp only [run]
    split
    · split
      · rfl
      · simp [h]
    · rfl

/-- An empty chain executes no handler and makes no observation. -/
theorem run_nil_chain (fuel : Nat) :
    (run fuel .nextC (initSt [])).invoked = [] ∧
      (run fuel .nextC (initSt [])).out = [] := by
  cases fuel with
  | zero => exact ⟨rfl, rfl⟩
  | succ f =>
    cases f with
    | zero => exact ⟨rfl, rfl⟩
    | succ f' => exact ⟨rfl, rfl⟩

/-! ## Normalization lemmas -/

/-- `dropWhile` is the identity when the predicate fails everywhere. -/
theorem dropWhile_of_forall_false {p : Char → Bool} :
    ∀ (s : Str), (∀ c ∈ s, p c = false) → s.dropWhile p = s := by
  intro s h
  cases s with
  | nil => rfl
  | cons c t => simp [List.dropWhile_cons, h c (List.mem_cons_self c t)]

/-- `TrimSpace` is the identity on white-space-free strings. -/
theorem trimSpace_of_noSpace (s : Str) (h : ∀ c ∈ s, isSpace c = false) :
    trimSpace s = s := by
  unfold trimSpace
  rw [dropWhile_of_forall_false s h,
    dropWhile_of_forall_false s.reverse (fun c hc => h c (List.mem_reverse.mp hc)),
    List.reverse_reverse]

/-- The replacement pass only keeps characters of its input or writes `'/'`. -/
theorem mem_replaceDSlash {c : Char} :
    ∀ (s : Str), c ∈ replaceDSlash s → c ∈ s ∨ c = '/' := by
  intro s
  induction s using replaceDSlash.induct with
  | case1 => intro h; exact absurd h (List.not_mem_nil c)
  | case2 d => intro h; exact Or.inl h
  | case3 c1 c2 rest h ih =>
    intro hm
    rw [replaceDSlash, if_pos h] at hm
    rcases List.mem_cons.mp hm with h' | h'
    · exact Or.inr h'
    · rcases ih h' with h'' | h''
      · exact Or.inl (by simp [h''])
      · exact Or.inr h''
  | case4 c1 c2 rest h ih =>
    intro hm
    rw [replaceDSlash, if_neg h] at hm
    rcases List.mem_cons.mp hm with h' | h'
    · exact Or.inl (by simp [h'])
    · rcases ih h' with h'' | h''
      · exact Or.inl (List.mem_cons_of_mem _ h'')
      · exact Or.inr h''

/-- The replacement pass never lengthens the string. -/
theorem replaceDSlash_length_le : ∀ (s : Str), (replaceDSlash s).length ≤ s.length := by
  intro s
  induction s using replaceDSlash.induct with
  | case1 => simp [replaceDSlash]
  | case2 d => simp [replaceDSlash]
  | case3 c1 c2 rest h ih =>
    rw [replaceDSlash, if_pos h]
    simp at ih ⊢
    omega
  | case4 c1 c2 rest h ih =>
    rw [replaceDSlash, if_neg h]
    simp at ih ⊢
    omega

/-- The replacement pass strictly shortens a string that contains `"//"`. -/
theorem replaceDSlash_length_lt :
    ∀ (s : Str), containsDSlash s = true → (replaceDSlash s).length < s.length := by
  intro s
  induction s using replaceDSlash.induct with
  | case1 => intro h; exact absurd h (by simp [containsDSlash])
  | case2 d => intro h; exact absurd h (by simp [containsDSlash])
  | case3 c1 c2 rest h ih =>
    intro _
    rw [replaceDSlash, if_pos h]
    have := replaceDSlash_length_le rest
    simp
    omega
  | case4 c1 c2 rest h ih =>
    intro hc
    rw [containsDSlash] at hc
    rw [Bool.eq_false_iff.mpr h, Bool.false_or] at hc
    rw [replaceDSlash, if_neg h]
    have := ih hc
    simp at this ⊢
    omega

/-- With fuel at least the string's length, the collapse loop reaches a
slash-run-free fixpoint — so the fuelled model agrees with Go's unbounded
`for` loop. -/
theorem collapseAux_not_contains : ∀ (fuel : Nat) (s : Str), s.length ≤ fuel →
    containsDSlash (collapseAux fuel s) = false := by
  intro fuel
  induction fuel with
  | zero =>
    intro s h
    have hs : s = [] := List.length_eq_zero.mp (Nat.le_zero.mp h)
    subst hs
    rfl
  | succ f ih =>
    intro s h
    rw [collapseAux]
    split
    · next hc => exact ih _ (by have := replaceDSlash_length_lt s hc; omega)
    · next hc => simpa using hc

/-- The collapse loop does nothing on a string without `"//"`. -/
theorem collapseAux_of_not_contains (fuel : Nat) (s : Str)
    (h : containsDSlash s = false) : collapseAux fuel s = s := by
  cases fuel with
  | zero => rfl
  | succ f => simp [collapseAux, h]

/-- The collapse loop only keeps characters of its input or writes `'/'`. -/
theorem mem_collapseAux {c : Char} : ∀ (fuel : Nat) (s : Str),
    c ∈ collapseAux fuel s → c ∈ s ∨ c = '/' := by
  intro fuel
  induction fuel with
  | zero => intro s h; exact Or.inl h
  | succ f ih =>
    intro s h
    rw [collapseAux] at h
    split at h
    · rcases ih _ h with h' | h'
      · exact mem_replaceDSlash s h'
      · exact Or.inr h'
    · exact Or.inl h

/-- Dropping the last character cannot create a `"//"`. -/
theorem containsDSlash_dropLast : ∀ (s : Str), containsDSlash s = false →
    containsDSlash s.dropLast = false := by
  intro s
  induction s with
  | nil => intro _; rfl
  | cons c1 t ih =>
    intro h
    cases t with
    | nil => rfl
    | cons c2 rest =>
      rw [containsDSlash, Bool.or_eq_false_iff] at h
      obtain ⟨h1, h2⟩ := h
      have ihd := ih h2
      rw [List.dropLast_cons₂]
      cases hrest : rest with
      | nil => rfl
      | cons d rs =>
        subst hrest
        rw [List.dropLast_cons₂] at ihd ⊢
        rw [containsDSlash, Bool.or_eq_false_iff]
        exact ⟨h1, ihd⟩

/-- A string ending in `"//"` contains `"//"`. -/
theorem containsDSlash_append_dslash :
    ∀ (ys : Str), containsDSlash (ys ++ ['/', '/']) = true := by
  intro ys
  induction ys with
  | nil => decide
  | cons c t ih =>
    cases t with
    | nil => simp [containsDSlash]
    | cons d u =>
      have ih' : containsDSlash (d :: (u ++ ['/', '/'])) = true := by
        simpa using ih
      simp only [List.cons_append, containsDSlash, List.append_eq, ih', Bool.or_true]

/-- `normalizePath` is the identity on paths already in normal form. -/
theorem normalizePath_canon_id (s : Str) (h : pathCanon s) : normalizePath s = s := by
  obtain ⟨hsw, hcon, hsp, hlast⟩ := h
  have hne : s ≠ [] := by
    intro he
    subst he
    simp [startsWithSlash] at hsw
  unfold normalizePath normalizeRest normalizeEnd
  rw [if_neg hne, trimSpace_of_noSpace s hsp]
  unfold collapse
  rw [collapseAux_of_not_contains _ s hcon, if_pos hsw]
  by_cases hs : s = ['/']
  · simp [hs]
  · rw [if_pos hs]
    unfold trimSuffixSlash
    rcases hlast with h1 | h2
    · exact absurd h1 hs
    · rw [if_neg h2]

/-- The trailing-slash rule yields a path in normal form whenever its input
has a leading slash and is slash-run-free and white-space-free. -/
theorem pathCanon_normalizeEnd (p3 : Str) (hsw : startsWithSlash p3 = true)
    (hc : containsDSlash p3 = false) (hs : ∀ c ∈ p3, isSpace c = false) :
    pathCanon (normalizeEnd p3) := by
  unfold normalizeEnd
  by_cases h3 : p3 = ['/']
  · subst h3
    decide
  · rw [if_pos h3]
    unfold trimSuffixSlash
    by_cases hl : p3.getLast? = some '/'
    · rw [if_pos hl]
      cases p3 with
      | nil => simp [startsWithSlash] at hsw
      | cons d t =>
        have hd : d = '/' := by simpa [startsWithSlash] using hsw
        subst hd
        cases t with
        | nil => exact absurd rfl h3
        | cons e u =>
          rw [List.dropLast_cons₂]
          refine ⟨rfl, ?_, ?_, ?_⟩
          · have hdrop := containsDSlash_dropLast ('/' :: e :: u) hc
            rw [List.dropLast_cons₂] at hdrop
            exact hdrop
          · intro c hcm
            rw [← List.dropLast_cons₂] at hcm
            exact hs c (List.mem_of_mem_dropLast hcm)
          · by_cases hr : ('/' : Char) :: (e :: u).dropLast = ['/']
            · exact Or.inl hr
            · refine Or.inr fun hbad => ?_
              have h1 : List.dropLast ('/' :: e :: u) ++ ['/'] = '/' :: e :: u :=
                List.dropLast_append_getLast? '/' (by simp [Option.mem_def, hl])
              have h2 : ('/' :: (e :: u).dropLast).dropLast ++ ['/'] =
                  '/' :: (e :: u).dropLast :=
                List.dropLast_append_getLast? '/' (by simp [Option.mem_def, hbad])
              have hsplit : '/' :: e :: u =
                  ('/' :: (e :: u).dropLast).dropLast ++ ['/', '/'] := by
                calc '/' :: e :: u = List.dropLast ('/' :: e :: u) ++ ['/'] := h1.symm
                  _ = ('/' :: (e :: u).dropLast) ++ ['/'] := by rw [List.dropLast_cons₂]
                  _ = (('/' :: (e :: u).dropLast).dropLast ++ ['/']) ++ ['/'] := by
                      rw [h2]
                  _ = ('/' :: (e :: u).dropLast).dropLast ++ ['/', '/'] := by
                      simp [List.append_assoc]
              have hcontra := containsDSlash_append_dslash
                (('/' :: (e :: u).dropLast).dropLast)
              rw [← hsplit] at hcontra
              rw [hcontra] at hc
              cases hc
    · rw [if_neg hl]
      exact ⟨hsw, hc, hs, Or.inr hl⟩

/-- Forcing the leading slash and applying the trailing-slash rule yields a
path in normal form from any slash-run-free, white-space-free string. -/
theorem pathCanon_normalizeRest (p2 : Str) (hc : containsDSlash p2 = false)
    (hs : ∀ c ∈ p2, isSpace c = false) : pathCanon (normalizeRest p2) := by
  unfold normalizeRest
  by_cases hsw : startsWithSlash p2 = true
  · rw [if_pos hsw]
    exact pathCanon_normalizeEnd p2 hsw hc hs
  · rw [if_neg hsw]
    apply pathCanon_normalizeEnd
    · rfl
    · cases p2 with
      | nil => decide
      | cons d t =>
        have hd : ¬ d = '/' := by
          simpa [startsWithSlash] using hsw
        rw [containsDSlash, Bool.or_eq_false_iff]
        exact ⟨by simp [hd], hc⟩
    · intro c hcm
      rcases List.mem_cons.mp hcm with h | h
      · subst h; decide
      · exact hs c h

/-- On white-space-free input, `normalizePath` produces a path in normal
form. -/
theorem pathCanon_normalizePath (p : Str) (hsp : ∀ c ∈ p, isSpace c = false) :
    pathCanon (normalizePath p) := by
  unfold normalizePath
  by_cases hp : p = []
  · rw [if_pos hp]
    decide
  · rw [if_neg hp, trimSpace_of_noSpace p hsp]
    apply pathCanon_normalizeRest
    · exact collapseAux_not_contains _ _ le_rfl
    · intro c hc
      rcases mem_collapseAux _ _ hc with h | h
      · exact hsp c h
      · subst h; decide

/-! ## Segment and join lemmas -/

/-- A slash-free string contains no `"//"`. -/
theorem noSlash_noDSlash : ∀ (s : Str), (∀ c ∈ s, c ≠ '/') →
    containsDSlash s = false := by
  intro s
  induction s with
  | nil => intro _; rfl
  | cons c t ih =>
    intro h
    cases t with
    | nil => rfl
    | cons d u =>
      rw [containsDSlash, Bool.or_eq_false_iff]
      refine ⟨?_, ih fun x hx => h x (List.mem_cons_of_mem _ hx)⟩
      simp [h c (List.mem_cons_self c _)]

/-- Splitting a slash-free string yields the single segment. -/
theorem splitSlash_noSlash : ∀ (s : Str), (∀ c ∈ s, c ≠ '/') →
    splitSlash s = [s] := by
  intro s
  induction s with
  | nil => intro _; rfl
  | cons c t ih =>
    intro h
    rw [splitSlash, if_neg (by exact_mod_cast h c (List.mem_cons_self c t))]
    rw [ih fun x hx => h x (List.mem_cons_of_mem _ hx)]

/-- Splitting after a slash-free first segment peels that segment off. -/
theorem splitSlash_append : ∀ (s : Str), (∀ c ∈ s, c ≠ '/') → ∀ (t : Str),
    splitSlash (s ++ '/' :: t) = s :: splitSlash t := by
  intro s
  induction s with
  | nil => intro _ t; simp [splitSlash]
  | cons c s' ih =>
    intro h t
    rw [List.cons_append, splitSlash,
      if_neg (by exact_mod_cast h c (List.mem_cons_self c s'))]
    rw [ih (fun x hx => h x (List.mem_cons_of_mem _ hx)) t]

/-- A non-empty slash-free segment in front does not affect whether the rest
of the path contains `"//"`. -/
theorem containsDSlash_seg_append : ∀ (s : Str), (∀ c ∈ s, c ≠ '/') → s ≠ [] →
    ∀ (t : Str), containsDSlash (s ++ '/' :: t) = containsDSlash ('/' :: t) := by
  intro s
  induction s with
  | nil => intro _ h; exact absurd rfl h
  | cons c s' ih =>
    intro h _ t
    cases s' with
    | nil =>
      simp only [List.cons_append, List.nil_append, containsDSlash]
      simp [h c (List.mem_cons_self c _)]
    | cons d s'' =>
      rw [List.cons_append, List.cons_append, containsDSlash]
      have hih := ih (fun x hx => h x (List.mem_cons_of_mem _ hx)) (by simp) t
      rw [List.cons_append] at hih
      rw [hih]
      simp [h c (List.mem_cons_self c _)]

/-- Unfolding `joinAux` on a list with at least two segments. -/
theorem joinAux_cons (s : Str) (rest : List Str) (h : rest ≠ []) :
    joinAux (s :: rest) = s ++ '/' :: joinAux rest := by
  cases rest with
  | nil => exact absurd rfl h
  | cons t ts => rfl

/-- Joining non-empty segments yields a non-empty string. -/
theorem joinAux_ne_nil : ∀ (ss : List Str), ss ≠ [] → (∀ s ∈ ss, validSeg s) →
    joinAux ss ≠ [] := by
  intro ss
  cases ss with
  | nil => intro h; exact absurd rfl h
  | cons s rest =>
    intro _ hv
    cases rest with
    | nil => exact (hv s (List.mem_cons_self s _)).1
    | cons t ts =>
      rw [joinAux_cons s _ (by simp)]
      simp

/-- Every character of a join is a slash or a character of some segment. -/
theorem mem_joinAux : ∀ (ss : List Str) (c : Char), c ∈ joinAux ss →
    c = '/' ∨ ∃ s ∈ ss, c ∈ s := by
  intro ss
  induction ss with
  | nil => intro c h; exact absurd h (List.not_mem_nil c)
  | cons s rest ih =>
    intro c h
    cases rest with
    | nil => exact Or.inr ⟨s, List.mem_cons_self s _, h⟩
    | cons t ts =>
      rw [joinAux_cons s _ (by simp)] at h
      rcases List.mem_append.mp h with h' | h'
      · exact Or.inr ⟨s, List.mem_cons_self s _, h'⟩
      · rcases List.mem_cons.mp h' with h'' | h''
        · exact Or.inl h''
        · rcases ih c h'' with h3 | ⟨u, hu, hcu⟩
          · exact Or.inl h3
          · exact Or.inr ⟨u, List.mem_cons_of_mem _ hu, hcu⟩

/-- The join of valid segments contains no `"//"`, even with the leading
slash attached. -/
theorem containsDSlash_joinSegs : ∀ (ss : List Str), (∀ s ∈ ss, validSeg s) →
    ss ≠ [] → containsDSlash (joinSegs ss) = false := by
  intro ss
  induction ss with
  | nil => intro _ h; exact absurd rfl h
  | cons s rest ih =>
    intro hv _
    obtain ⟨hne, hch⟩ := hv s (List.mem_cons_self s _)
    cases rest with
    | nil =>
      show containsDSlash ('/' :: joinAux [s]) = false
      cases s with
      | nil => exact absurd rfl hne
      | cons c t =>
        rw [show joinAux [c :: t] = c :: t from rfl, containsDSlash,
          Bool.or_eq_false_iff]
        refine ⟨by simp [(hch c (List.mem_cons_self c t)).1], ?_⟩
        exact noSlash_noDSlash _ fun x hx => (hch x hx).1
    | cons t ts =>
      show containsDSlash ('/' :: joinAux (s :: t :: ts)) = false
      rw [joinAux_cons s _ (by simp)]
      cases s with
      | nil => exact absurd rfl hne
      | cons c s'' =>
        rw [show ('/' : Char) :: ((c :: s'') ++ '/' :: joinAux (t :: ts)) =
          '/' :: c :: (s'' ++ '/' :: joinAux (t :: ts)) from rfl, containsDSlash,
          Bool.or_eq_false_iff]
        constructor
        · simp [(hch c (List.mem_cons_self c _)).1]
        · rw [show c :: (s'' ++ '/' :: joinAux (t :: ts)) =
            (c :: s'') ++ '/' :: joinAux (t :: ts) from rfl]
          rw [containsDSlash_seg_append (c :: s'')
            (fun x hx => (hch x hx).1) (by simp) _]
          exact ih (fun u hu => hv u (List.mem_cons_of_mem _ hu)) (by simp)

/-- The join of valid segments does not end in a slash. -/
theorem getLast_joinAux : ∀ (ss : List Str), (∀ s ∈ ss, validSeg s) →
    ss ≠ [] → (joinAux ss).getLast? ≠ some '/' := by
  intro ss
  induction ss with
  | nil => intro _ h; exact absurd rfl h
  | cons s rest ih =>
    intro hv _
    cases rest with
    | nil =>
      show (joinAux [s]).getLast? ≠ some '/'
      intro hbad
      obtain ⟨hne, hch⟩ := hv s (List.mem_cons_self s _)
      have hbad' : s.getLast? = some '/' := by simpa [joinAux] using hbad
      have hmem : ('/' : Char) ∈ s := by
        rcases List.mem_getLast?_eq_getLast (x := '/') (l := s)
          (by simp [Option.mem_def, hbad']) with ⟨hne', heq⟩
        rw [heq]
        exact List.getLast_mem hne'
      exact ((hch '/' hmem).1) rfl
    | cons t ts =>
      rw [joinAux_cons s _ (by simp)]
      have hrest : joinAux (t :: ts) ≠ [] :=
        joinAux_ne_nil _ (by simp) fun u hu => hv u (List.mem_cons_of_mem _ hu)
      rw [List.getLast?_append_of_ne_nil s (by simp)]
      rw [show ('/' : Char) :: joinAux (t :: ts) = ['/'] ++ joinAux (t :: ts) from rfl,
        List.getLast?_append_of_ne_nil ['/'] hrest]
      exact ih (fun u hu => hv u (List.mem_cons_of_mem _ hu)) (by simp)

/-- The canonical path spelled by valid segments is already in normal form. -/
theorem pathCanon_joinSegs (ss : List Str) (hv : ∀ s ∈ ss, validSeg s)
    (hne : ss ≠ []) : pathCanon (joinSegs ss) := by
  refine ⟨rfl, containsDSlash_joinSegs ss hv hne, ?_, Or.inr ?_⟩
  · intro c hc
    rcases List.mem_cons.mp hc with h | h
    · subst h; decide
    · rcases mem_joinAux ss c h with h' | ⟨s, hs, hcs⟩
      · subst h'; decide
      · exact ((hv s hs).2 c hcs).2
  · show (('/' : Char) :: joinAux ss).getLast? ≠ some '/'
    rw [show ('/' : Char) :: joinAux ss = ['/'] ++ joinAux ss from rfl,
      List.getLast?_append_of_ne_nil ['/'] (joinAux_ne_nil ss hne hv)]
    exact getLast_joinAux ss hv hne

/-- The canonical path of a non-empty segment list is not the root path. -/
theorem joinSegs_ne_root (ss : List Str) (hv : ∀ s ∈ ss, validSeg s)
    (hne : ss ≠ []) : joinSegs ss ≠ ['/'] := by
  unfold joinSegs
  intro h
  exact joinAux_ne_nil ss hne hv (by injection h)

/-- Splitting the join of valid segments recovers the segments. -/
theorem splitSlash_joinAux : ∀ (ss : List Str), (∀ s ∈ ss, validSeg s) →
    ss ≠ [] → splitSlash (joinAux ss) = ss := by
  intro ss
  induction ss with
  | nil => intro _ h; exact absurd rfl h
  | cons s rest ih =>
    intro hv _
    cases rest with
    | nil => exact splitSlash_noSlash s fun c hc => ((hv s (by simp)).2 c hc).1
    | cons t ts =>
      rw [joinAux_cons s _ (by simp),
        splitSlash_append s (fun c hc => ((hv s (by simp)).2 c hc).1) _,
        ih (fun u hu => hv u (List.mem_cons_of_mem _ hu)) (by simp)]

/-! ## Insertion into a fresh subtree -/

/-- Inserting any segment list into a fresh subtree succeeds, and searching
the same segments in the result finds exactly the stored chain. -/
theorem insertSegs_fresh {α : Type} : ∀ (ss : List Str) (path : Str)
    (hs h0 : Option (List α)) (e0 : Bool) (nm : Str),
    ∃ t, insertSegs path (RNode.mk [] none h0 e0 nm) ss hs = .ok t ∧
      ∀ ps, (searchSegs t ss ps).1 = hs := by
  intro ss
  induction ss with
  | nil =>
    intro path hs h0 e0 nm
    exact ⟨RNode.mk [] none hs true nm, rfl, fun ps => rfl⟩
  | cons seg rest ih =>
    intro path hs h0 e0 nm
    by_cases hp : seg.head? = some ':'
    · obtain ⟨c, hc, hsearch⟩ := ih path hs none false seg.tail
      refine ⟨RNode.mk [] (some c) h0 e0 nm, ?_, ?_⟩
      · have hc' : insertSegs path (freshParam seg.tail) rest hs = Except.ok c := hc
        rw [insertSegs, if_pos hp, hc']
        rfl
      · intro ps
        exact hsearch (assocSet ps c.paramName seg)
    · obtain ⟨c, hc, hsearch⟩ := ih path hs none false []
      refine ⟨RNode.mk [(seg, c)] none h0 e0 nm, ?_, ?_⟩
      · have hc' : insertSegs path ((assocFind (RNode.mk ([] : List (Str × RNode α))
            none h0 e0 nm).children seg).getD freshNode) rest hs = Except.ok c := hc
        rw [insertSegs, if_neg hp, hc']
        rfl
      · intro ps
        have hstep : searchSegs (RNode.mk [(seg, c)] none h0 e0 nm) (seg :: rest) ps =
            searchSegs c rest ps := by
          simp [searchSegs, RNode.children, assocFind]
        rw [hstep]
        exact hsearch ps

/-- The root of a grown subtree keeps the parameter name it started with. -/
theorem buildSub_paramName {α : Type} (ss : List Str) (hs h0 : Option (List α))
    (e0 : Bool) (nm : Str) :
    (buildSub ss hs h0 e0 nm : RNode α).paramName = nm := by
  cases ss with
  | nil => rfl
  | cons seg rest =>
    rw [buildSub]
    split
    · rfl
    · rfl

/-- Inserting a segment list into a node with no children grows exactly the
`buildSub` subtree. -/
theorem insertSegs_build {α : Type} : ∀ (ss : List Str) (path : Str)
    (hs h0 : Option (List α)) (e0 : Bool) (nm : Str),
    insertSegs path (RNode.mk [] none h0 e0 nm) ss hs =
      .ok (buildSub ss hs h0 e0 nm) := by
  intro ss
  induction ss with
  | nil => intro path hs h0 e0 nm; rfl
  | cons seg rest ih =>
    intro path hs h0 e0 nm
    by_cases hp : seg.head? = some ':'
    · have hc' : insertSegs path (freshParam seg.tail) rest hs =
          Except.ok (buildSub rest hs none false seg.tail) :=
        ih path hs none false seg.tail
      rw [insertSegs, if_pos hp, hc', buildSub, if_pos hp]
      rfl
    · have hc' : insertSegs path ((assocFind (RNode.mk ([] : List (Str × RNode α))
          none h0 e0 nm).children seg).getD freshNode) rest hs =
          Except.ok (buildSub rest hs none false []) := ih path hs none false []
      rw [insertSegs, if_neg hp, hc', buildSub, if_neg hp]
      rfl

/-- Inserting a second parameter name at the trie position where a previous
insertion put a different one fails with the conflict message naming the
offending path and both names. -/
theorem insertSegs_conflict {α : Type} :
    ∀ (pre : List Str) (path₂ n₁ n₂ : Str) (hs₁ hs₂ h0 : Option (List α))
      (e0 : Bool) (nm : Str),
    n₁ ≠ n₂ →
    insertSegs path₂ (buildSub (pre ++ [':' :: n₁]) hs₁ h0 e0 nm)
      (pre ++ [':' :: n₂]) hs₂ = .error (conflictMsg path₂ n₂ n₁) := by
  intro pre
  induction pre with
  | nil =>
    intro path₂ n₁ n₂ hs₁ hs₂ h0 e0 nm hne
    show insertSegs path₂ (RNode.mk []
        (some (RNode.mk [] none hs₁ true n₁)) h0 e0 nm) [':' :: n₂] hs₂ = _
    rw [insertSegs, if_pos (show (':' :: n₂ : Str).head? = some ':' from rfl)]
    dsimp only [RNode.paramChild, RNode.paramName, List.tail_cons]
    rw [if_pos hne]
  | cons seg pre ih =>
    intro path₂ n₁ n₂ hs₁ hs₂ h0 e0 nm hne
    rw [List.cons_append, List.cons_append, buildSub]
    by_cases hp : seg.head? = some ':'
    · rw [if_pos hp, insertSegs, if_pos hp]
      dsimp only [RNode.paramChild]
      have hpn : (buildSub (pre ++ [':' :: n₁]) hs₁ none false seg.tail
          : RNode α).paramName = seg.tail := buildSub_paramName _ _ _ _ _
      rw [if_neg (by rw [hpn]; exact fun hcon => hcon rfl)]
      rw [ih path₂ n₁ n₂ hs₁ hs₂ none false seg.tail hne]
    · rw [if_neg hp, insertSegs, if_neg hp]
      have hfind : ((assocFind (RNode.mk
          [(seg, buildSub (pre ++ [':' :: n₁]) hs₁ none false [])]
          none h0 e0 nm : RNode α).children seg).getD freshNode) =
          buildSub (pre ++ [':' :: n₁]) hs₁ none false [] := by
        simp [RNode.children, assocFind]
      rw [hfind, ih path₂ n₁ n₂ hs₁ hs₂ none false [] hne]

/-! ## Claim theorems -/

/-- C1: the claim says a registered route's stored chain is the global
middleware, then ancestor-group middleware outermost first, then the route's
handlers (so global `[A]`, group `[B]`, handler `[C]` yields `A, B, C`, and a
route registered directly on the Router still begins with the global
middleware).  Evaluating the code at that input: the group route stores
`[B, A, C]` (group middleware first, global middleware last), and the direct
route stores just `[C]` — `GET` passes `nil` middlewares to `addRoute`, so
`Use` middleware is dropped entirely. -/
theorem c1_middleware_order_code :
    (do
      let r2 ← groupAdd (routerGroup (str "/api") [1])
        (useRouter (emptyRouter (α := Nat)) [0]) methodGet (str "/x") [2]
      pure (searchGo r2 methodGet (str "/api/x")).1) = .ok (some [1, 0, 2]) ∧
    (do
      let r3 ← routerHandle (useRouter (emptyRouter (α := Nat)) [0]) methodGet
        (str "/y") [2]
      pure (searchGo r3 methodGet (str "/y")).1) = .ok (some [2]) ∧
    ([1, 0, 2] : List Nat) ≠ [0, 1, 2] ∧ ([2] : List Nat) ≠ [0, 2] := by
  exact ⟨rfl, rfl, by decide, by decide⟩

/-- C4: during lookup a literal child matching the current segment is always
preferred over the parameter child, and concretely, after registering
`/users/me ↦ H1` and `/users/:id ↦ H2`, searching `/users/me` yields `H1`
while `/users/42` yields `H2` with `id` bound to `"42"`. -/
theorem c4_literal_precedence {α : Type} (H1 H2 : List α) :
    (∀ (n child : RNode α) (seg : Str) (rest : List Str) (ps : List (Str × Str)),
      assocFind n.children seg = some child →
      searchSegs n (seg :: rest) ps = searchSegs child rest ps) ∧
    (do
      let r1 ← routerHandle (emptyRouter (α := α)) methodGet (str "/users/me") H1
      let r2 ← routerHandle r1 methodGet (str "/users/:id") H2
      pure ((searchGo r2 methodGet (str "/users/me")).1,
        searchGo r2 methodGet (str "/users/42"))) =
      .ok (some H1, (some H2, [(str "id", str "42")])) := by
  constructor
  · intro n child seg rest ps h
    simp [searchSegs, h]
  · rfl

/-- C4 witness: the one-step precedence fact applied at a node that has both
a matching literal child and a parameter child. -/
theorem c4_literal_precedence_witness :
    searchSegs (RNode.mk [(str "me", RNode.mk [] none (some [1]) true [])]
        (some (RNode.mk [] none (some [2]) true (str "id"))) none false [])
      [str "me"] [] =
      searchSegs (RNode.mk [] none (some ([1] : List Nat)) true []) [] [] :=
  (c4_literal_precedence [1] [2]).1 _ _ _ _ _ rfl

/-- C5: insert followed by search round-trips: after
`insert(GET, "/users/:id", H)`, searching `/users/123` returns the chain `H`
with the raw binding `id ↦ "123"`, and `/users/` and `/users` give the same
result, their normalized paths being equal. -/
theorem c5_round_trip {α : Type} (H : List α) :
    ∃ r, insertGo (emptyRouter (α := α)) methodGet (str "/users/:id") (some H) =
        .ok r ∧
      searchGo r methodGet (str "/users/123") =
        (some H, [(str "id", str "123")]) ∧
      searchGo r methodGet (str "/users/") = searchGo r methodGet (str "/users") ∧
      normalizePath (str "/users/") = normalizePath (str "/users") := by
  exact ⟨_, rfl, rfl, rfl, rfl⟩

/-- C6: the search of a segment list equals the pure walk followed by the
terminal check — running out of trie structure and ending at a non-terminal
node collapse to the same `(nil, nil)` not-found result — and whenever search
reports not-found the dispatcher writes the not-found response and invokes no
handler. -/
theorem c6_not_found_uniform :
    (∀ (α : Type) (n : RNode α) (segs : List Str) (ps : List (Str × Str)),
      searchSegs n segs ps =
        match walkSegs n segs ps with
        | some (nd, ps') => if nd.isEnd then (nd.handlers, ps') else (none, [])
        | none => (none, [])) ∧
    (∀ (r : GoRouter Handler) (method path : Str) (fuel : Nat),
      (searchGo r method path).1 = none →
      serveExec fuel r method path = ⟨true, [], []⟩) := by
  constructor
  · intro α n segs
    induction segs generalizing n with
    | nil => intro ps; rfl
    | cons seg rest ih =>
      intro ps
      simp only [searchSegs, walkSegs]
      rcases assocFind n.children seg with _ | child
      · rcases n.paramChild with _ | pc
        · rfl
        · exact ih pc _
      · exact ih child ps
  · intro r method path fuel h
    unfold serveExec
    rcases hq : searchGo r method path with ⟨hs, ps⟩
    rw [hq] at h
    simp only at h
    subst h
    rfl

/-- C6 witness: an unregistered path on the empty router dispatches to the
not-found response with no handler invoked. -/
theorem c6_not_found_uniform_witness :
    serveExec 5 (emptyRouter (α := Handler)) methodGet (str "/missing") =
      ⟨true, [], []⟩ :=
  c6_not_found_uniform.2 emptyRouter methodGet (str "/missing") 5 rfl

/-- C7: in a three-handler chain whose second handler calls `Abort()` before
`Next()`, the third handler never runs; `Next()` on an already-aborted
context is a no-op; and after a handler's `Next()` returns, `IsAborted()`
reads `false` when no handler of the chain aborts, `true` when a downstream
handler aborted. -/
theorem c7_abort_semantics :
    (run 20 .nextC (initSt [[.obs], [.abort, .next], [.obs]])).invoked = [0, 1] ∧
    (∀ (fuel : Nat) (st : ExecSt), st.aborted = true → run fuel .nextC st = st) ∧
    (∀ (fuel : Nat) (st : ExecSt), st.aborted = false →
      (∀ h ∈ st.handlers, HAct.abort ∉ h) →
      (run fuel .nextC st).aborted = false) ∧
    (run 20 .nextC (initSt [[.next, .obs], []])).out = [false] ∧
    (run 20 .nextC (initSt [[.next, .obs], [.abort]])).out = [true] := by
  refine ⟨by decide, ?_, ?_, by decide, by decide⟩
  · intro fuel st h
    cases fuel with
    | zero => rfl
    | succ f => simp [run, h]
  · intro fuel st h hch
    rw [run_aborted_of_abortFree fuel .nextC st hch (by intro acts h'; cases h'), h]

/-- C7 witness: the no-op and abort-free parts applied at concrete states. -/
theorem c7_abort_semantics_witness :
    run 3 .nextC ⟨[[.obs]], -1, true, false, [], []⟩ =
        ⟨[[.obs]], -1, true, false, [], []⟩ ∧
      (run 3 .nextC (initSt [[.obs], [.obs]])).aborted = false :=
  ⟨c7_abort_semantics.2.1 3 ⟨[[.obs]], -1, true, false, [], []⟩ rfl,
    c7_abort_semantics.2.2.1 3 (initSt [[.obs], [.obs]]) rfl (by decide)⟩

/-- C8: acquisition fully resets the pooled Context — parameter mapping and
key/value bag cleared, cursor before the first handler, abort flag cleared,
sink and request bound — and release clears sink, request and chain; hence a
second acquire/release cycle never observes the first cycle's parameter
mapping or bag contents, however the first cycle mutated them, and a released
Context no longer references the completed request. -/
theorem c8_pool_reset {α σ ρ δ : Type} (c : GoContext α σ ρ δ) (w w' : σ)
    (r r' : ρ) (h h' : Option (List α)) (junkParams : List (Str × Str))
    (junkData : List (Str × δ)) (junkIdx : Int) (junkAbort : Bool) :
    acquireCtx c w r h =
      ⟨some w, some r, [], [], -1, h, false⟩ ∧
    (releaseCtx c).writer = none ∧ (releaseCtx c).req = none ∧
    (releaseCtx c).handlers = none ∧
    acquireCtx (releaseCtx { acquireCtx c w r h with
        params := junkParams, data := junkData, index := junkIdx,
        aborted := junkAbort }) w' r' h' =
      ⟨some w', some r', [], [], -1, h', false⟩ := by
  exact ⟨rfl, rfl, rfl, rfl, rfl⟩

/-- C9: the executor checks request cancellation between handlers — once the
cancellation signal has fired, `Next()` invokes no further handler and makes
no further observation — while a handler that is already running is never
interrupted: in the concrete chain whose first handler cancels the request
mid-body, that handler's remaining action still runs, and the second handler
is never invoked. -/
theorem c9_cancellation :
    (∀ (fuel : Nat) (st : ExecSt), st.cancelled = true →
      (run fuel .nextC st).invoked = st.invoked ∧
        (run fuel .nextC st).out = st.out) ∧
    run 20 .nextC (initSt [[.cancel, .obs], [.obs]]) =
      ⟨[[.cancel, .obs], [.obs]], 1, false, true, [0], [false]⟩ := by
  refine ⟨?_, by decide⟩
  intro fuel st h
  cases fuel with
  | zero => exact ⟨rfl, rfl⟩
  | succ f =>
    simp only [run]
    split
    · exact ⟨rfl, rfl⟩
    · rw [run_loopC_cancelled f (bumpIndex st) (by simpa [bumpIndex] using h)]
      exact ⟨rfl, rfl⟩

/-- C9 witness: the cancellation part applied at a concrete cancelled state. -/
theorem c9_cancellation_witness :
    (run 3 .nextC ⟨[[.obs]], -1, false, true, [], []⟩).invoked = [] ∧
      (run 3 .nextC ⟨[[.obs]], -1, false, true, [], []⟩).out = [] :=
  c9_cancellation.1 3 ⟨[[.obs]], -1, false, true, [], []⟩ rfl

/-- C2 is false as stated: normalization is not idempotent on every string.
For `"/a /"`, the first pass trims no white space (the string ends in a
slash, not a space) and then removes the trailing slash, leaving `"/a "`;
the second pass trims the now-exposed trailing space, giving `"/a"`. -/
theorem c2_idem_counterexample :
    normalizePath (normalizePath (str "/a /")) ≠ normalizePath (str "/a /") := by
  decide

/-- C2 (amended): path normalization is idempotent on every white-space-free
string — `normalize(normalize(p)) == normalize(p)` whenever no character of
`p` is white space — and the concrete mappings hold: `"" → "/"`,
`"home" → "/home"`, `"/home/" → "/home"`,
`"/home//about///contact" → "/home/about/contact"`, `"////" → "/"`. -/
theorem c2_normalize_idem_amended :
    (∀ p : Str, (∀ c ∈ p, isSpace c = false) →
      normalizePath (normalizePath p) = normalizePath p) ∧
    normalizePath (str "") = str "/" ∧
    normalizePath (str "home") = str "/home" ∧
    normalizePath (str "/home/") = str "/home" ∧
    normalizePath (str "/home//about///contact") = str "/home/about/contact" ∧
    normalizePath (str "////") = str "/" := by
  refine ⟨?_, by decide, by decide, by decide, by decide, by decide⟩
  intro p h
  exact normalizePath_canon_id _ (pathCanon_normalizePath p h)

/-- C2 witness: idempotence applied at the white-space-free string
`"/home//about"`. -/
theorem c2_normalize_idem_amended_witness :
    normalizePath (normalizePath (str "/home//about")) =
      normalizePath (str "/home//about") :=
  c2_normalize_idem_amended.1 (str "/home//about") (by decide)

/-- C10: registering a route with zero handlers still produces a matching
route: for every canonical path, inserting it with an empty handler list
makes search return a successful match with the empty non-`nil` chain (the
combined slice `addRoute` builds is never `nil`), and the dispatcher then
executes the empty chain — writing nothing and invoking no handler — instead
of writing the not-found response. -/
theorem c10_empty_chain (method : Str) (ss : List Str) (fuel : Nat)
    (hne : ss ≠ []) (hval : ∀ s ∈ ss, validSeg s) :
    ∃ r, addRoute (emptyRouter (α := Handler)) method (joinSegs ss) [] [] =
        .ok r ∧
      (searchGo r method (joinSegs ss)).1 = some [] ∧
      serveExec fuel r method (joinSegs ss) = ⟨false, [], []⟩ := by
  have hnorm : normalizePath (joinSegs ss) = joinSegs ss :=
    normalizePath_canon_id _ (pathCanon_joinSegs ss hval hne)
  have hroot : joinSegs ss ≠ ['/'] := joinSegs_ne_root ss hval hne
  have hsplit : splitSlash (joinSegs ss).tail = ss := splitSlash_joinAux ss hval hne
  obtain ⟨t, hins, hsearch⟩ :=
    insertSegs_fresh (α := Handler) ss (joinSegs ss) (some []) none false []
  have hins' : insertSegs (joinSegs ss)
      (getTree (emptyRouter (α := Handler)) method) ss
      (some (([] : List Handler) ++ [])) = Except.ok t := hins
  have hfind : assocFind [(method, t)] method = some t := by simp [assocFind]
  have hS : searchGo (GoRouter.mk [(method, t)] ([] : List Handler)) method
      (joinSegs ss) = searchSegs t ss [] := by
    simp only [searchGo]
    rw [hnorm]
    simp only [hfind]
    rw [if_neg hroot, hsplit]
  refine ⟨GoRouter.mk [(method, t)] [], ?_, ?_, ?_⟩
  · show insertGo (emptyRouter (α := Handler)) method (joinSegs ss)
      (some (([] : List Handler) ++ [])) = _
    simp only [insertGo]
    rw [hnorm, if_neg hroot, hsplit, hins']
    rfl
  · rw [hS]
    exact hsearch []
  · unfold serveExec
    rcases hq : searchSegs t ss ([] : List (Str × Str)) with ⟨o, ps⟩
    rw [hS, hq]
    have h1 := hsearch ([] : List (Str × Str))
    rw [hq] at h1
    simp only at h1
    subst h1
    obtain ⟨hi, ho⟩ := run_nil_chain fuel
    simp [hi, ho]

/-- C3: for every method and every trie position (any prefix of valid
segments), inserting a path whose parameter segment carries a name different
from the parameter child already present there fails at registration time —
the second insertion returns the fatal conflict error instead of letting the
last registration win — with the message naming the conflicting (normalized)
path and both parameter names. -/
theorem c3_param_conflict {α : Type} (method : Str) (pre : List Str)
    (n₁ n₂ : Str) (hs₁ hs₂ : Option (List α)) (hpre : ∀ s ∈ pre, validSeg s)
    (hn₁ : validName n₁) (hn₂ : validName n₂) (hne : n₁ ≠ n₂) :
    (do
      let r₁ ← insertGo (emptyRouter (α := α)) method
        (joinSegs (pre ++ [':' :: n₁])) hs₁
      insertGo r₁ method (joinSegs (pre ++ [':' :: n₂])) hs₂) =
      .error (conflictMsg (joinSegs (pre ++ [':' :: n₂])) n₂ n₁) := by
  have hvseg : ∀ (n : Str), validName n → validSeg (':' :: n) := by
    intro n hn
    refine ⟨by simp, ?_⟩
    intro c hc
    rcases List.mem_cons.mp hc with h' | h'
    · subst h'
      exact ⟨by decide, by decide⟩
    · exact hn c h'
  have hv₁ : ∀ s ∈ pre ++ [':' :: n₁], validSeg s := by
    intro s hsm
    rcases List.mem_append.mp hsm with h | h
    · exact hpre s h
    · rw [List.mem_singleton.mp h]
      exact hvseg n₁ hn₁
  have hv₂ : ∀ s ∈ pre ++ [':' :: n₂], validSeg s := by
    intro s hsm
    rcases List.mem_append.mp hsm with h | h
    · exact hpre s h
    · rw [List.mem_singleton.mp h]
      exact hvseg n₂ hn₂
  have hne₁ : pre ++ [':' :: n₁] ≠ [] := by simp
  have hne₂ : pre ++ [':' :: n₂] ≠ [] := by simp
  have hnorm₁ := normalizePath_canon_id _ (pathCanon_joinSegs _ hv₁ hne₁)
  have hnorm₂ := normalizePath_canon_id _ (pathCanon_joinSegs _ hv₂ hne₂)
  have hroot₁ := joinSegs_ne_root _ hv₁ hne₁
  have hroot₂ := joinSegs_ne_root _ hv₂ hne₂
  have hsplit₁ : splitSlash (joinSegs (pre ++ [':' :: n₁])).tail =
      pre ++ [':' :: n₁] := splitSlash_joinAux _ hv₁ hne₁
  have hsplit₂ : splitSlash (joinSegs (pre ++ [':' :: n₂])).tail =
      pre ++ [':' :: n₂] := splitSlash_joinAux _ hv₂ hne₂
  have hins : insertSegs (joinSegs (pre ++ [':' :: n₁]))
      (getTree (emptyRouter (α := α)) method) (pre ++ [':' :: n₁]) hs₁ =
      Except.ok (buildSub (pre ++ [':' :: n₁]) hs₁ none false []) :=
    insertSegs_build _ _ _ _ _ _
  have hconf := insertSegs_conflict pre (joinSegs (pre ++ [':' :: n₂])) n₁ n₂
    hs₁ hs₂ none false [] hne
  have hfirst : insertGo (emptyRouter (α := α)) method
      (joinSegs (pre ++ [':' :: n₁])) hs₁ =
      .ok (GoRouter.mk
        [(method, buildSub (pre ++ [':' :: n₁]) hs₁ none false [])] []) := by
    simp only [insertGo]
    rw [hnorm₁, if_neg hroot₁, hsplit₁, hins]
    rfl
  have hgt : getTree (GoRouter.mk [(method, buildSub (pre ++ [':' :: n₁]) hs₁
      none false [])] ([] : List α)) method =
      buildSub (pre ++ [':' :: n₁]) hs₁ none false [] := by
    simp [getTree, assocFind]
  have hsecond : insertGo (GoRouter.mk [(method, buildSub (pre ++ [':' :: n₁])
      hs₁ none false [])] ([] : List α)) method (joinSegs (pre ++ [':' :: n₂]))
      hs₂ = .error (conflictMsg (joinSegs (pre ++ [':' :: n₂])) n₂ n₁) := by
    simp only [insertGo]
    rw [hnorm₂, if_neg hroot₂, hsplit₂, hgt, hconf]
  rw [hfirst]
  exact hsecond

/-- C3 witness: registering `/users/:id` and then `/users/:name` fails with
the conflict message naming the second path and both names. -/
theorem c3_param_conflict_witness :
    (do
      let r₁ ← insertGo (emptyRouter (α := Nat)) methodGet
        (joinSegs [str "users", ':' :: str "id"]) (some [1])
      insertGo r₁ methodGet (joinSegs [str "users", ':' :: str "name"])
        (some [2])) =
      .error (conflictMsg (joinSegs [str "users", ':' :: str "name"])
        (str "name") (str "id")) :=
  c3_param_conflict methodGet [str "users"] (str "id") (str "name")
    (some [1]) (some [2]) (by decide) (by decide) (by decide) (by decide)

/-- C10 witness: the zero-handler route `/a` matches and dispatches to the
empty chain. -/
theorem c10_empty_chain_witness :
    ∃ r, addRoute (emptyRouter (α := Handler)) methodGet (joinSegs [str "a"]) [] [] =
        .ok r ∧
      (searchGo r methodGet (joinSegs [str "a"])).1 = some [] ∧
      serveExec 5 r methodGet (joinSegs [str "a"]) = ⟨false, [], []⟩ :=
  c10_empty_chain methodGet [str "a"] 5 (by decide) (by decide)

end Alsonow
